import Mathlib

/-!
Shallow embedding of the playing-card / deck / poker-hand model in
`Poker_game/creation_of_deck.py` and `Poker_game/creation_of_game.py`,
together with proofs of the specified properties.

Python mutation is embedded by explicit state passing: an operation that
mutates a `Deck` returns the new `Deck`, and an operation that can raise
returns an `Option`/`Except` value paired with the state as it stands when
the exception propagates (so a failure that happens after some mutation
leaves the mutation visible, exactly as in Python).
-/

namespace Poker

/-- A playing card with a rank and a suit (class `Card`). -/
structure Card where
  rank : String
  suit : String
deriving DecidableEq, Repr

namespace Card

/-- Python's `Card.RANKS`: the 13 ranks, in ascending order. -/
def RANKS : List String :=
  ["2", "3", "4", "5", "6", "7", "8", "9", "10", "J", "Q", "K", "A"]

/-- Python's `Card.SUITS`: the 4 suits. -/
def SUITS : List String := ["♣", "♦", "♥", "♠"]

/-- The two `ValueError`s that `Card.__init__` can raise (the spec's
InvalidValue error). -/
inductive InitError where
  | invalidRank
  | invalidSuit
deriving DecidableEq, Repr

/-- Python's `Card.__init__`: validates the rank first, then the suit, and only then
constructs the card. -/
def init (rank suit : String) : Except InitError Card :=
  if rank ∈ RANKS then
    if suit ∈ SUITS then Except.ok ⟨rank, suit⟩
    else Except.error InitError.invalidSuit
  else Except.error InitError.invalidRank

/-- Python's `Card.RANKS.index(r)` (total model: `List.indexOf` returns the list
length when the rank is absent; every card built by the program has a rank
occurring in `RANKS`). -/
def rankIndex (r : String) : Nat := RANKS.indexOf r

/-- Python's `Card.__eq__`: equality is decided by rank alone, ignoring the suit. -/
def beq (a b : Card) : Bool := a.rank == b.rank

/-- Python's `Card.__lt__`: compares the positions of the two ranks in `RANKS`. -/
def lt (a b : Card) : Bool := decide (rankIndex a.rank < rankIndex b.rank)

/-- Python's `Card.__gt__`: compares the positions of the two ranks in `RANKS`. -/
def gt (a b : Card) : Bool := decide (rankIndex b.rank < rankIndex a.rank)

/-- The non-strict comparison `not (b < a)` that Python's stable `sorted`,
driven by `Card.__lt__`, effectively uses as its "less or equal". -/
def le (a b : Card) : Bool := ! lt b a

end Card

/-- A deck of cards (class `Deck`); the field is the `_cards` list. -/
structure Deck where
  cards : List Card
deriving DecidableEq, Repr

namespace Deck

/-- Python's `Deck.__init__`: all 52 rank/suit combinations, outer loop over the
suits, inner loop over the ranks. -/
def new : Deck :=
  ⟨Card.SUITS.flatMap fun suit => Card.RANKS.map fun rank => ⟨rank, suit⟩⟩

/-- Swap the entries at positions `i` and `j` (identity when either index is
out of range): the elementary step `x[i], x[j] = x[j], x[i]` of
`random.shuffle`. -/
def listSwap {α : Type} (l : List α) (i j : Nat) : List α :=
  match l.get? i, l.get? j with
  | some a, some b => (l.set i b).set j a
  | some _, none => l
  | none, _ => l

/-- The Fisher-Yates loop of `random.shuffle`: for `i` from `len - 1` down
to `1`, swap position `i` with a drawn position `rnd i % (i + 1)`. -/
def shuffleAux {α : Type} (rnd : Nat → Nat) : Nat → List α → List α
  | 0, l => l
  | i + 1, l => shuffleAux rnd i (listSwap l (i + 1) (rnd (i + 1) % (i + 2)))

/-- Python's `Deck.shuffle`: in-place uniform shuffle of `_cards`, with the source of
randomness made explicit as `rnd`. -/
def shuffle (d : Deck) (rnd : Nat → Nat) : Deck :=
  ⟨shuffleAux rnd (d.cards.length - 1) d.cards⟩

/-- Python's `Deck.deal`: `self._cards.pop(0)`.  On an empty deck the pop raises
(`IndexError`, the spec's EmptyResource): no card is produced and the deck
is unchanged. -/
def deal (d : Deck) : Option Card × Deck :=
  match d.cards with
  | [] => (none, d)
  | c :: rest => (some c, ⟨rest⟩)

/-- Deal `n` cards in sequence.  A failure propagates, but the deals already
performed stay applied to the deck (Python exception semantics). -/
def dealMany : Nat → Deck → Option (List Card) × Deck
  | 0, d => (some [], d)
  | n + 1, d =>
    match d.deal with
    | (none, d') => (none, d')
    | (some c, d') =>
      match dealMany n d' with
      | (some cs, d'') => (some (c :: cs), d'')
      | (none, d'') => (none, d'')

end Deck

/-- A poker hand of five cards (class `Hand`); the field is `_cards`. -/
structure Hand where
  cards : List Card
deriving DecidableEq, Repr

/-- Default card used to totalise the positional accesses `self.cards[i]`
performed by `Hand` (the program only indexes positions that exist). -/
def defaultCard : Card := ⟨"2", "♣"⟩

namespace Hand

/-- Python's `Hand.__init__`: deal five cards from the given deck, mutating it. -/
def init (deck : Deck) : Option Hand × Deck :=
  match Deck.dealMany 5 deck with
  | (some cs, d') => (some ⟨cs⟩, d')
  | (none, d') => (none, d')

/-- Positional access `self.cards[i]`. -/
def card (h : Hand) (i : Nat) : Card := h.cards.getD i defaultCard

/-- Python's `Hand.is_flush`: all cards share the suit of the first card. -/
def is_flush (h : Hand) : Bool :=
  h.cards.all fun c => c.suit == (h.card 0).suit

/-- Python's `Hand.num_matches`: the double loop over positions `i, j < 5`, counting
the ordered pairs of distinct positions whose cards share a rank. -/
def num_matches (h : Hand) : Nat :=
  ((List.range 5).map fun i =>
    ((List.range 5).filter fun j =>
      decide (i ≠ j ∧ (h.card i).rank = (h.card j).rank)).length).sum

/-- Python's `Hand.is_pair`. -/
def is_pair (h : Hand) : Bool := h.num_matches == 2

/-- Python's `Hand.is_2pair`. -/
def is_2pair (h : Hand) : Bool := h.num_matches == 4

/-- Python's `Hand.is_trips`. -/
def is_trips (h : Hand) : Bool := h.num_matches == 6

/-- Python's `Hand.is_quads`. -/
def is_quads (h : Hand) : Bool := h.num_matches == 12

/-- Python's `Hand.is_full_house`. -/
def is_full_house (h : Hand) : Bool := h.num_matches == 8

/-- Python's `Hand.is_straight`: sort a copy of the cards by rank (Python's stable
`sorted` on `Card.__lt__`), then require zero matches and a rank-index
difference of 4 between the last and first sorted card. -/
def is_straight (h : Hand) : Bool :=
  let sorted_cards := h.cards.mergeSort Card.le
  let high := Card.rankIndex (sorted_cards.getD 4 defaultCard).rank
  let low := Card.rankIndex (sorted_cards.getD 0 defaultCard).rank
  (h.num_matches == 0) && ((high : Int) - (low : Int) == 4)

/-- Python's `Hand.is_straight` with the hand's state threaded through explicitly:
`sorted(self.cards)` builds a sorted copy, and the hand's own `_cards`
sequence is handed back as it was. -/
def is_straightSt (h : Hand) : Bool × Hand :=
  let sorted_cards := h.cards.mergeSort Card.le
  let high := Card.rankIndex (sorted_cards.getD 4 defaultCard).rank
  let low := Card.rankIndex (sorted_cards.getD 0 defaultCard).rank
  ((h.num_matches == 0) && ((high : Int) - (low : Int) == 4), ⟨h.cards⟩)

end Hand

/-- The spec's description of `match_count`: the number of ordered pairs of
distinct positions `(i, j)` whose cards share a rank. -/
def specMatchCount (h : Hand) : Nat :=
  ((Finset.univ : Finset (Fin 5 × Fin 5)).filter fun p =>
    p.1 ≠ p.2 ∧ (h.card p.1.val).rank = (h.card p.2.val).rank).card

/-- The trial and match counters accumulated by the simulation loops
(`matched` embeds the Python variable `matches`, a Lean keyword). -/
structure SimState where
  matched : Nat
  trials : Nat
deriving DecidableEq, Repr

/-- One simulation trial: construct a fresh deck, shuffle it, deal a hand
from it, and evaluate the target predicate.  (On the 52-card deck the deal
always succeeds; the `none` branch is dead code.) -/
def trial (pred : Hand → Bool) (rnd : Nat → Nat) : Bool :=
  match Hand.init (Deck.new.shuffle rnd) with
  | (some h, _) => pred h
  | (none, _) => false

/-- The `while matches < quota` simulation loop, consuming one randomness
source per iteration and stopping when the match quota is reached (or when
the supplied randomness runs out, which Python's endless supply never
does). -/
def runSim (pred : Hand → Bool) (quota : Nat) :
    List (Nat → Nat) → SimState → SimState
  | [], s => s
  | rnd :: rest, s =>
    if s.matched < quota then
      runSim pred quota rest
        ⟨s.matched + (if trial pred rnd then 1 else 0), s.trials + 1⟩
    else s

/-- Python's `estimated_probability = 100 * matches / trials`. -/
def estimated_probability (s : SimState) : ℚ :=
  100 * (s.matched : ℚ) / (s.trials : ℚ)

/-- The possible values of a sum of squares of natural numbers that are
each at most 4 and together sum to `n ≤ 5`. -/
def sqSums : Nat → List Nat
  | 0 => [0]
  | 1 => [1]
  | 2 => [2, 4]
  | 3 => [3, 5, 9]
  | 4 => [4, 6, 8, 10, 16]
  | 5 => [5, 7, 9, 11, 13, 17]
  | _ + 6 => []

end Poker

namespace Poker

/-- Dealing `n` cards always removes the first `min n (length)` cards from the
deck and succeeds exactly when `n` cards are available. -/
theorem Deck.dealMany_eq (n : Nat) (d : Deck) :
    Deck.dealMany n d =
      (if n ≤ d.cards.length then some (d.cards.take n) else none,
       ⟨d.cards.drop n⟩) := by
  induction n generalizing d with
  | zero => simp [Deck.dealMany]
  | succ n ih =>
    obtain ⟨cs⟩ := d
    cases cs with
    | nil => simp [Deck.dealMany, Deck.deal]
    | cons c rest =>
      have hrest := ih ⟨rest⟩
      simp only [Deck.dealMany, Deck.deal, hrest]
      by_cases hn : n ≤ rest.length
      · simp [hn, Nat.succ_le_succ hn]
      · have : ¬ (n + 1 ≤ rest.length + 1) := by omega
        simp [hn, this]

/-- C5: `deal()` on a non-empty deck removes and returns the front card,
decreasing the size by one; successive deals return the cards in
front-to-back order; and `deal()` on an empty deck fails, returning no
card and leaving the deck unchanged. -/
theorem deal_spec (d : Deck) :
    (d.cards = [] → d.deal = (none, d)) ∧
    (∀ c rest, d.cards = c :: rest →
      d.deal = (some c, ⟨rest⟩) ∧ (d.deal.2).cards.length + 1 = d.cards.length) ∧
    (∀ n, n ≤ d.cards.length → (Deck.dealMany n d).1 = some (d.cards.take n)) := by
  refine ⟨?_, ?_, ?_⟩
  · intro hnil
    obtain ⟨cs⟩ := d
    simp only at hnil
    subst hnil
    rfl
  · intro c rest hcons
    obtain ⟨cs⟩ := d
    simp only at hcons
    subst hcons
    exact ⟨rfl, rfl⟩
  · intro n hn
    rw [Deck.dealMany_eq]
    simp [hn]

/-- Witness for `deal_spec` at concrete decks. -/
theorem deal_spec_witness :
    (Deck.deal ⟨[⟨"7", "♥"⟩, ⟨"K", "♠"⟩]⟩ = (some ⟨"7", "♥"⟩, ⟨[⟨"K", "♠"⟩]⟩)) ∧
    (Deck.dealMany 2 ⟨[⟨"7", "♥"⟩, ⟨"K", "♠"⟩]⟩).1 = some [⟨"7", "♥"⟩, ⟨"K", "♠"⟩] ∧
    Deck.deal ⟨[]⟩ = (none, ⟨[]⟩) :=
  ⟨((deal_spec ⟨[⟨"7", "♥"⟩, ⟨"K", "♠"⟩]⟩).2.1 ⟨"7", "♥"⟩ [⟨"K", "♠"⟩] rfl).1,
   (deal_spec ⟨[⟨"7", "♥"⟩, ⟨"K", "♠"⟩]⟩).2.2 2 (by decide),
   (deal_spec ⟨[]⟩).1 rfl⟩

/-- C7: constructing a card with a rank from the 13-value rank domain and a
suit from the 4-value suit domain succeeds and stores exactly the supplied
values; any rank or suit outside its domain makes construction fail with a
`ValueError` (the spec's InvalidValue). -/
theorem card_init_spec (rank suit : String) :
    (rank ∈ Card.RANKS → suit ∈ Card.SUITS →
      Card.init rank suit = Except.ok ⟨rank, suit⟩ ∧
      ∀ c, Card.init rank suit = Except.ok c → c.rank = rank ∧ c.suit = suit) ∧
    (rank ∉ Card.RANKS ∨ suit ∉ Card.SUITS →
      ∃ e, Card.init rank suit = Except.error e) := by
  constructor
  · intro hr hs
    have hok : Card.init rank suit = Except.ok ⟨rank, suit⟩ := by
      simp [Card.init, hr, hs]
    refine ⟨hok, ?_⟩
    intro c hc
    rw [hok] at hc
    cases hc
    exact ⟨rfl, rfl⟩
  · intro hbad
    rcases hbad with hr | hs
    · exact ⟨Card.InitError.invalidRank, by simp [Card.init, hr]⟩
    · by_cases hr : rank ∈ Card.RANKS
      · exact ⟨Card.InitError.invalidSuit, by simp [Card.init, hr, hs]⟩
      · exact ⟨Card.InitError.invalidRank, by simp [Card.init, hr]⟩

/-- Witness for `card_init_spec`: a valid card and an invalid one. -/
theorem card_init_spec_witness :
    Card.init "A" "♠" = Except.ok ⟨"A", "♠"⟩ ∧
    ∃ e, Card.init "X" "♠" = Except.error e :=
  ⟨((card_init_spec "A" "♠").1 (by decide) (by decide)).1,
   (card_init_spec "X" "♠").2 (Or.inl (by decide))⟩

/-- C9: evaluating `is_straight` sorts a copy of the cards and hands the
hand's stored card sequence back unchanged. -/
theorem is_straight_frame (h : Hand) :
    Hand.is_straightSt h = (h.is_straight, h) :=
  rfl

/-- C10: the five match-count classification predicates test `num_matches`
against the pairwise distinct values 2, 4, 6, 8 and 12, so at most one of
them can hold on any hand. -/
theorem classification_exclusive (h : Hand) :
    [h.is_pair, h.is_2pair, h.is_trips, h.is_full_house, h.is_quads].count true ≤ 1 := by
  by_cases h2 : h.num_matches = 2 <;>
    by_cases h4 : h.num_matches = 4 <;>
    by_cases h6 : h.num_matches = 6 <;>
    by_cases h8 : h.num_matches = 8 <;>
    by_cases h12 : h.num_matches = 12 <;>
    first
      | omega
      | simp [Hand.is_pair, Hand.is_2pair, Hand.is_trips, Hand.is_full_house,
          Hand.is_quads, List.count_cons, h2, h4, h6, h8, h12]

end Poker

namespace Poker

/-- C4 (amended): constructing a `Hand` deals exactly five cards, removing
them from the deck; with fewer than five cards construction fails, but the
failure is not atomic: the deals before the failing one stay applied, and
the deck is left empty. -/
theorem hand_init_spec (d : Deck) :
    (5 ≤ d.cards.length →
      Hand.init d = (some ⟨d.cards.take 5⟩, ⟨d.cards.drop 5⟩)) ∧
    (d.cards.length < 5 →
      (Hand.init d).1 = none ∧ (Hand.init d).2 = ⟨[]⟩) := by
  have h5 := Deck.dealMany_eq 5 d
  constructor
  · intro hlen
    simp [Hand.init, h5, hlen]
  · intro hlen
    have hnot : ¬ 5 ≤ d.cards.length := by omega
    have hdrop : d.cards.drop 5 = [] := List.drop_eq_nil_of_le (by omega)
    simp [Hand.init, h5, hnot, hdrop]

/-- Witness for `hand_init_spec` at concrete decks. -/
theorem hand_init_spec_witness :
    (5 ≤ ([⟨"2", "♣"⟩, ⟨"3", "♣"⟩, ⟨"4", "♣"⟩, ⟨"5", "♣"⟩, ⟨"6", "♣"⟩] : List Card).length ∧
      Hand.init ⟨[⟨"2", "♣"⟩, ⟨"3", "♣"⟩, ⟨"4", "♣"⟩, ⟨"5", "♣"⟩, ⟨"6", "♣"⟩]⟩ =
        (some ⟨List.take 5 [⟨"2", "♣"⟩, ⟨"3", "♣"⟩, ⟨"4", "♣"⟩, ⟨"5", "♣"⟩, ⟨"6", "♣"⟩]⟩,
         ⟨List.drop 5 [⟨"2", "♣"⟩, ⟨"3", "♣"⟩, ⟨"4", "♣"⟩, ⟨"5", "♣"⟩, ⟨"6", "♣"⟩]⟩)) ∧
    (([⟨"2", "♣"⟩] : List Card).length < 5 ∧ (Hand.init ⟨[⟨"2", "♣"⟩]⟩).1 = none) :=
  ⟨⟨by decide, (hand_init_spec ⟨[⟨"2", "♣"⟩, ⟨"3", "♣"⟩, ⟨"4", "♣"⟩, ⟨"5", "♣"⟩, ⟨"6", "♣"⟩]⟩).1 (by decide)⟩,
   ⟨by decide, ((hand_init_spec ⟨[⟨"2", "♣"⟩]⟩).2 (by decide)).1⟩⟩

/-- C4 counterexample: on a three-card deck the hand construction fails, yet
the deck does not keep its cards: the failed construction has observably
removed them, so the failure is not atomic. -/
theorem hand_init_partial_mutation :
    (Hand.init ⟨[⟨"2", "♣"⟩, ⟨"3", "♣"⟩, ⟨"4", "♣"⟩]⟩).1 = none ∧
    (Hand.init ⟨[⟨"2", "♣"⟩, ⟨"3", "♣"⟩, ⟨"4", "♣"⟩]⟩).2 ≠
      ⟨[⟨"2", "♣"⟩, ⟨"3", "♣"⟩, ⟨"4", "♣"⟩]⟩ := by
  decide

/-- Replacing an entry with the value it already holds is the identity. -/
theorem set_own {α : Type} (l : List α) (i : Nat) (a : α)
    (h : l[i]? = some a) : l.set i a = l := by
  induction l generalizing i with
  | nil => simp at h
  | cons x xs ih =>
    cases i with
    | zero =>
      simp only [List.getElem?_cons_zero, Option.some.injEq] at h
      subst h
      rfl
    | succ n =>
      simp only [List.getElem?_cons_succ] at h
      simp only [List.set_cons_succ, ih n h]

/-- Pulling the entry at position `k` to the front while pushing `x` into
its place permutes pushing `x` onto the front. -/
theorem cons_set_perm {α : Type} (xs : List α) (k : Nat) (x b : α)
    (h : xs[k]? = some b) : (b :: xs.set k x).Perm (x :: xs) := by
  induction xs generalizing k with
  | nil => simp at h
  | cons y ys ih =>
    cases k with
    | zero =>
      simp only [List.getElem?_cons_zero, Option.some.injEq] at h
      subst h
      exact List.Perm.swap x y ys
    | succ n =>
      simp only [List.getElem?_cons_succ] at h
      simp only [List.set_cons_succ]
      have h1 : (b :: y :: ys.set n x).Perm (y :: b :: ys.set n x) :=
        List.Perm.swap y b (ys.set n x)
      have h2 : (y :: b :: ys.set n x).Perm (y :: x :: ys) := (ih n h).cons y
      exact h1.trans (h2.trans (List.Perm.swap x y ys))

/-- Swapping two in-range positions (lower one first) permutes the list. -/
theorem set_set_perm_lt {α : Type} (l : List α) (i j : Nat) (a b : α)
    (hij : i < j) (hi : l[i]? = some a) (hj : l[j]? = some b) :
    ((l.set i b).set j a).Perm l := by
  induction l generalizing i j with
  | nil => simp at hi
  | cons x xs ih =>
    cases i with
    | zero =>
      simp only [List.getElem?_cons_zero, Option.some.injEq] at hi
      subst hi
      obtain ⟨m, rfl⟩ : ∃ m, j = m + 1 := ⟨j - 1, by omega⟩
      simp only [List.getElem?_cons_succ] at hj
      simp only [List.set_cons_zero, List.set_cons_succ]
      exact cons_set_perm xs m x b hj
    | succ n =>
      obtain ⟨m, rfl⟩ : ∃ m, j = m + 1 := ⟨j - 1, by omega⟩
      simp only [List.getElem?_cons_succ] at hi hj
      simp only [List.set_cons_succ]
      exact (ih n m (by omega) hi hj).cons x

/-- The elementary swap of `random.shuffle` permutes the list. -/
theorem listSwap_perm {α : Type} (l : List α) (i j : Nat) :
    (Deck.listSwap l i j).Perm l := by
  cases hi : l[i]? with
  | none => simp [Deck.listSwap, List.get?_eq_getElem?, hi]
  | some a =>
    cases hj : l[j]? with
    | none => simp [Deck.listSwap, List.get?_eq_getElem?, hi, hj]
    | some b =>
      simp only [Deck.listSwap, List.get?_eq_getElem?, hi, hj]
      rcases Nat.lt_trichotomy i j with hlt | heq | hgt
      · exact set_set_perm_lt l i j a b hlt hi hj
      · subst heq
        rw [List.set_set, set_own l i a hi]
      · rw [List.set_comm b a l (ne_of_gt hgt)]
        exact set_set_perm_lt l j i b a hgt hj hi

/-- The Fisher-Yates loop permutes the list. -/
theorem shuffleAux_perm {α : Type} (rnd : Nat → Nat) (n : Nat) (l : List α) :
    (Deck.shuffleAux rnd n l).Perm l := by
  induction n generalizing l with
  | zero => exact List.Perm.refl l
  | succ n ih =>
    exact (ih _).trans (listSwap_perm l (n + 1) (rnd (n + 1) % (n + 2)))

/-- C6: a fresh deck holds exactly 52 cards, covering every rank/suit
combination with no duplicate, and shuffling any deck leaves its cards a
permutation of what they were. -/
theorem deck_new_shuffle_spec :
    Deck.new.cards.length = 52 ∧ Deck.new.cards.Nodup ∧
    (∀ r ∈ Card.RANKS, ∀ s ∈ Card.SUITS, (⟨r, s⟩ : Card) ∈ Deck.new.cards) ∧
    ∀ (d : Deck) (rnd : Nat → Nat), ((d.shuffle rnd).cards).Perm d.cards := by
  refine ⟨by decide, by decide, by decide, ?_⟩
  intro d rnd
  exact shuffleAux_perm rnd (d.cards.length - 1) d.cards

/-- Witness for `deck_new_shuffle_spec`: a concrete covered combination and
a concrete shuffle. -/
theorem deck_new_shuffle_spec_witness :
    (⟨"A", "♠"⟩ : Card) ∈ Deck.new.cards ∧
    ((Deck.shuffle ⟨[⟨"A", "♠"⟩, ⟨"2", "♣"⟩]⟩ fun _ => 0).cards).Perm
      [⟨"A", "♠"⟩, ⟨"2", "♣"⟩] :=
  ⟨deck_new_shuffle_spec.2.2.1 "A" (by decide) "♠" (by decide),
   deck_new_shuffle_spec.2.2.2 ⟨[⟨"A", "♠"⟩, ⟨"2", "♣"⟩]⟩ (fun _ => 0)⟩

end Poker

namespace Poker

/-- C8: `==` on cards holds exactly on equal ranks regardless of suit, `<`
and `>` hold exactly on the order of the rank indices in `RANKS`, `<` is
transitive, and on cards with ranks in the rank domain the three relations
are trichotomous and mutually exclusive: a total order by rank index. -/
theorem card_order_spec (a b c : Card) :
    (Card.beq a b = true ↔ a.rank = b.rank) ∧
    (Card.lt a b = true ↔ Card.rankIndex a.rank < Card.rankIndex b.rank) ∧
    (Card.gt a b = true ↔ Card.rankIndex b.rank < Card.rankIndex a.rank) ∧
    (Card.lt a b = true → Card.lt b c = true → Card.lt a c = true) ∧
    (a.rank ∈ Card.RANKS → b.rank ∈ Card.RANKS →
      (Card.beq a b = true ↔ Card.rankIndex a.rank = Card.rankIndex b.rank) ∧
      (Card.lt a b = true ∨ Card.beq a b = true ∨ Card.gt a b = true) ∧
      ¬ (Card.lt a b = true ∧ Card.beq a b = true) ∧
      ¬ (Card.beq a b = true ∧ Card.gt a b = true) ∧
      ¬ (Card.lt a b = true ∧ Card.gt a b = true)) := by
  have hbeq : Card.beq a b = true ↔ a.rank = b.rank := by
    simp [Card.beq]
  have hlt : Card.lt a b = true ↔ Card.rankIndex a.rank < Card.rankIndex b.rank := by
    simp [Card.lt]
  have hgt : Card.gt a b = true ↔ Card.rankIndex b.rank < Card.rankIndex a.rank := by
    simp [Card.gt]
  refine ⟨hbeq, hlt, hgt, ?_, ?_⟩
  · intro h1 h2
    simp only [Card.lt, decide_eq_true_iff] at h1 h2 ⊢
    omega
  · intro hra hrb
    have hinj : Card.rankIndex a.rank = Card.rankIndex b.rank ↔ a.rank = b.rank :=
      List.indexOf_inj hra hrb
    have hbeq' : Card.beq a b = true ↔ Card.rankIndex a.rank = Card.rankIndex b.rank := by
      rw [hbeq, hinj]
    refine ⟨hbeq', ?_, ?_, ?_, ?_⟩
    · rw [hlt, hbeq', hgt]
      omega
    · rw [hlt, hbeq']
      omega
    · rw [hbeq', hgt]
      omega
    · rw [hlt, hgt]
      omega

/-- Witness for `card_order_spec`: two cards of equal rank and different
suit compare equal, and two concrete in-domain cards are trichotomous. -/
theorem card_order_spec_witness :
    Card.beq ⟨"2", "♣"⟩ ⟨"2", "♦"⟩ = true ∧
    (Card.lt ⟨"2", "♣"⟩ ⟨"3", "♠"⟩ = true ∨ Card.beq ⟨"2", "♣"⟩ ⟨"3", "♠"⟩ = true ∨
      Card.gt ⟨"2", "♣"⟩ ⟨"3", "♠"⟩ = true) :=
  ⟨(card_order_spec ⟨"2", "♣"⟩ ⟨"2", "♦"⟩ ⟨"2", "♦"⟩).1.mpr rfl,
   ((card_order_spec ⟨"2", "♣"⟩ ⟨"3", "♠"⟩ ⟨"3", "♠"⟩).2.2.2.2 (by decide) (by decide)).2.1⟩

end Poker

namespace Poker

/-- The comparison `Card.le` holds exactly when the rank indices are in non-strict order. -/
theorem card_le_iff (a b : Card) :
    Card.le a b = true ↔ Card.rankIndex a.rank ≤ Card.rankIndex b.rank := by
  simp only [Card.le, Card.lt, Bool.not_eq_true', decide_eq_false_iff_not, Nat.not_lt]

/-- The sort used by `is_straight` orders the cards by `Card.le`. -/
theorem mergeSort_sorted_le (l : List Card) :
    List.Pairwise (fun a b => Card.le a b = true) (l.mergeSort Card.le) := by
  refine @List.sorted_mergeSort Card Card.le ?_ ?_ l
  · intro a b c hab hbc
    rw [card_le_iff] at hab hbc ⊢
    omega
  · intro a b
    rw [Bool.or_eq_true, card_le_iff, card_le_iff]
    omega

/-- In a sorted copy of a five-card hand, the last card carries a maximal
rank index, the first a minimal one, and both belong to the hand. -/
theorem sorted_extremes (h : Hand) (hlen : h.cards.length = 5) :
    (h.cards.mergeSort Card.le).getD 4 defaultCard ∈ h.cards ∧
    (h.cards.mergeSort Card.le).getD 0 defaultCard ∈ h.cards ∧
    ∀ c ∈ h.cards,
      Card.rankIndex c.rank ≤
        Card.rankIndex ((h.cards.mergeSort Card.le).getD 4 defaultCard).rank ∧
      Card.rankIndex ((h.cards.mergeSort Card.le).getD 0 defaultCard).rank ≤
        Card.rankIndex c.rank := by
  set s := h.cards.mergeSort Card.le with hs
  have hperm : s.Perm h.cards := List.mergeSort_perm h.cards Card.le
  have hslen : s.length = 5 := by rw [hperm.length_eq, hlen]
  have h4 : (4 : Nat) < s.length := by omega
  have h0 : (0 : Nat) < s.length := by omega
  have hg4 : s.getD 4 defaultCard = s[4] := by
    rw [List.getD_eq_getElem?_getD, List.getElem?_eq_getElem h4]
    rfl
  have hg0 : s.getD 0 defaultCard = s[0] := by
    rw [List.getD_eq_getElem?_getD, List.getElem?_eq_getElem h0]
    rfl
  have hpg := List.pairwise_iff_get.mp (mergeSort_sorted_le h.cards)
  refine ⟨?_, ?_, ?_⟩
  · rw [hg4]
    exact hperm.mem_iff.mp (List.getElem_mem h4)
  · rw [hg0]
    exact hperm.mem_iff.mp (List.getElem_mem h0)
  · intro c hc
    have hcs : c ∈ s := hperm.mem_iff.mpr hc
    obtain ⟨k, hk, hck⟩ := List.getElem_of_mem hcs
    constructor
    · rw [hg4]
      rcases Nat.lt_or_ge k 4 with hk4 | hk4
      · have hle := hpg ⟨k, hk⟩ ⟨4, h4⟩ (by simpa using hk4)
        rw [card_le_iff] at hle
        simpa [List.get_eq_getElem, hck] using hle
      · have hkeq : k = 4 := by omega
        subst hkeq
        rw [← hck]
    · rw [hg0]
      rcases Nat.eq_or_lt_of_le (Nat.zero_le k) with hk0 | hk0
      · have hkeq : k = 0 := by omega
        subst hkeq
        rw [← hck]
      · have hle := hpg ⟨0, h0⟩ ⟨k, hk⟩ (by simpa using hk0)
        rw [card_le_iff] at hle
        simpa [List.get_eq_getElem, hck] using hle

/-- On a five-card hand, `is_straight` holds exactly when there are no rank
matches and the rank index of a highest card exceeds that of a lowest card
by 4. -/
theorem is_straight_iff_extremes (h : Hand) (hlen : h.cards.length = 5) :
    h.is_straight = true ↔
      (h.num_matches = 0 ∧
       ∃ chi ∈ h.cards, ∃ clo ∈ h.cards,
         (∀ c ∈ h.cards,
           Card.rankIndex c.rank ≤ Card.rankIndex chi.rank ∧
           Card.rankIndex clo.rank ≤ Card.rankIndex c.rank) ∧
         (Card.rankIndex chi.rank : Int) - (Card.rankIndex clo.rank : Int) = 4) := by
  obtain ⟨hm4, hm0, hbounds⟩ := sorted_extremes h hlen
  simp only [Hand.is_straight, Bool.and_eq_true, beq_iff_eq]
  constructor
  · rintro ⟨hm, hdiff⟩
    exact ⟨hm, _, hm4, _, hm0, hbounds, hdiff⟩
  · rintro ⟨hm, chi, hchi, clo, hclo, hb, hd⟩
    refine ⟨hm, ?_⟩
    have h1 : Card.rankIndex ((h.cards.mergeSort Card.le).getD 4 defaultCard).rank =
        Card.rankIndex chi.rank :=
      Nat.le_antisymm ((hb _ hm4).1) ((hbounds chi hchi).1)
    have h2 : Card.rankIndex ((h.cards.mergeSort Card.le).getD 0 defaultCard).rank =
        Card.rankIndex clo.rank :=
      Nat.le_antisymm ((hbounds clo hclo).2) ((hb _ hm0).2)
    rw [h1, h2]
    exact hd

end Poker

namespace Poker

/-- C2: on every five-card hand, `is_straight` holds exactly when
`num_matches` is zero and the rank index of the highest card exceeds that
of the lowest card by 4; in particular the hand A-2-3-4-5 is not a
straight, since the Ace sorts as the highest rank. -/
theorem is_straight_spec :
    (∀ h : Hand, h.cards.length = 5 →
      (h.is_straight = true ↔
        (h.num_matches = 0 ∧
         ∃ chi ∈ h.cards, ∃ clo ∈ h.cards,
           (∀ c ∈ h.cards,
             Card.rankIndex c.rank ≤ Card.rankIndex chi.rank ∧
             Card.rankIndex clo.rank ≤ Card.rankIndex c.rank) ∧
           (Card.rankIndex chi.rank : Int) - (Card.rankIndex clo.rank : Int) = 4))) ∧
    Hand.is_straight ⟨[⟨"A", "♣"⟩, ⟨"2", "♣"⟩, ⟨"3", "♣"⟩, ⟨"4", "♣"⟩, ⟨"5", "♣"⟩]⟩ = false := by
  refine ⟨fun h hlen => is_straight_iff_extremes h hlen, ?_⟩
  rw [Bool.eq_false_iff]
  intro htrue
  rw [is_straight_iff_extremes ⟨[⟨"A", "♣"⟩, ⟨"2", "♣"⟩, ⟨"3", "♣"⟩, ⟨"4", "♣"⟩, ⟨"5", "♣"⟩]⟩ rfl] at htrue
  revert htrue
  decide

/-- Witness for `is_straight_spec` at a genuine straight 2-3-4-5-6. -/
theorem is_straight_spec_witness :
    (Hand.cards ⟨[⟨"2", "♣"⟩, ⟨"3", "♣"⟩, ⟨"4", "♣"⟩, ⟨"5", "♣"⟩, ⟨"6", "♣"⟩]⟩).length = 5 ∧
    (Hand.is_straight ⟨[⟨"2", "♣"⟩, ⟨"3", "♣"⟩, ⟨"4", "♣"⟩, ⟨"5", "♣"⟩, ⟨"6", "♣"⟩]⟩ = true ↔
      (Hand.num_matches ⟨[⟨"2", "♣"⟩, ⟨"3", "♣"⟩, ⟨"4", "♣"⟩, ⟨"5", "♣"⟩, ⟨"6", "♣"⟩]⟩ = 0 ∧
       ∃ chi ∈ (Hand.cards ⟨[⟨"2", "♣"⟩, ⟨"3", "♣"⟩, ⟨"4", "♣"⟩, ⟨"5", "♣"⟩, ⟨"6", "♣"⟩]⟩),
         ∃ clo ∈ (Hand.cards ⟨[⟨"2", "♣"⟩, ⟨"3", "♣"⟩, ⟨"4", "♣"⟩, ⟨"5", "♣"⟩, ⟨"6", "♣"⟩]⟩),
           (∀ c ∈ (Hand.cards ⟨[⟨"2", "♣"⟩, ⟨"3", "♣"⟩, ⟨"4", "♣"⟩, ⟨"5", "♣"⟩, ⟨"6", "♣"⟩]⟩),
             Card.rankIndex c.rank ≤ Card.rankIndex chi.rank ∧
             Card.rankIndex clo.rank ≤ Card.rankIndex c.rank) ∧
           (Card.rankIndex chi.rank : Int) - (Card.rankIndex clo.rank : Int) = 4)) :=
  ⟨rfl, is_straight_spec.1 ⟨[⟨"2", "♣"⟩, ⟨"3", "♣"⟩, ⟨"4", "♣"⟩, ⟨"5", "♣"⟩, ⟨"6", "♣"⟩]⟩ rfl⟩

end Poker

namespace Poker

/-- Counting positions of `range (length l)` by a predicate on the entry
stored there is counting entries of `l`. -/
theorem countP_range_getD {α : Type} (l : List α) (d : α) (p : α → Bool) :
    (List.range l.length).countP (fun i => p (l.getD i d)) = l.countP p := by
  induction l with
  | nil => rfl
  | cons x xs ih =>
    simp only [List.length_cons, List.range_succ_eq_map, List.countP_cons,
      List.countP_map, Function.comp_def, List.getD_cons_zero, List.getD_cons_succ]
    rw [ih]

/-- Mapping positions of `range (length l)` through the entry stored there
is mapping the entries of `l`. -/
theorem map_range_getD {α β : Type} (l : List α) (d : α) (f : α → β) :
    (List.range l.length).map (fun i => f (l.getD i d)) = l.map f := by
  induction l with
  | nil => rfl
  | cons x xs ih =>
    simp only [List.length_cons, List.range_succ_eq_map, List.map_cons,
      List.map_map, Function.comp_def, List.getD_cons_zero, List.getD_cons_succ]
    rw [ih]

/-- Dropping the one position `i` from a count over a duplicate-free list
removes exactly one hit when `i` itself satisfies the predicate. -/
theorem countP_erase_self (l : List Nat) (hnd : l.Nodup) (i : Nat)
    (hi : i ∈ l) (q : Nat → Bool) (hq : q i = true) :
    l.countP (fun j => decide (i ≠ j) && q j) + 1 = l.countP q := by
  induction l with
  | nil => simp at hi
  | cons a t ih =>
    rw [List.nodup_cons] at hnd
    rcases List.mem_cons.mp hi with hia | hit
    · subst hia
      have hcong : t.countP (fun j => decide (i ≠ j) && q j) = t.countP q := by
        refine List.countP_congr ?_
        intro x hx
        have hne : i ≠ x := fun hcon => hnd.1 (hcon ▸ hx)
        simp [hne]
      rw [List.countP_cons, List.countP_cons, hcong, hq]
      simp
    · have hne : i ≠ a := fun hcon => hnd.1 (hcon ▸ hit)
      have hih := ih hnd.2 hit
      rw [List.countP_cons, List.countP_cons]
      have hpa : (decide (i ≠ a) && q a) = q a := by simp [hne]
      rw [hpa]
      omega

/-- Summing a pointwise successor adds the length. -/
theorem sum_map_pointwise_succ (xs : List Nat) (F G : Nat → Nat)
    (hp : ∀ i ∈ xs, F i + 1 = G i) :
    (xs.map F).sum + xs.length = (xs.map G).sum := by
  induction xs with
  | nil => simp
  | cons a t ih =>
    have ha := hp a (List.mem_cons_self a t)
    have ht := ih fun i hi => hp i (List.mem_cons_of_mem a hi)
    simp only [List.map_cons, List.sum_cons, List.length_cons]
    omega

/-- Counting the cards that share the rank of `c` is counting the rank of
`c` among the hand's ranks. -/
theorem countP_rank_eq_count (cards : List Card) (c : Card) :
    cards.countP (fun c' => decide (c.rank = c'.rank)) =
      (cards.map Card.rank).count c.rank := by
  rw [List.count, List.countP_map]
  refine List.countP_congr ?_
  intro x _
  simp only [Function.comp_def, decide_eq_true_eq, beq_iff_eq]
  exact eq_comm

/-- The table `sqSums` is closed under adding one more part of size at most 4. -/
theorem sqSums_closed :
    ∀ k < 5, ∀ m < 6, k + m ≤ 5 → ∀ s ∈ sqSums m, k * k + s ∈ sqSums (k + m) := by
  decide

/-- A sum of squares of counts that are at most 4 each and sum to at most 5
lies in `sqSums` of the total. -/
theorem sum_sq_mem (t : Finset String) (c : String → Nat)
    (hb : ∀ r ∈ t, c r ≤ 4) (hs : (∑ r ∈ t, c r) ≤ 5) :
    (∑ r ∈ t, c r * c r) ∈ sqSums (∑ r ∈ t, c r) := by
  revert hb hs
  induction t using Finset.induction_on with
  | empty => intro _ _; simp [sqSums]
  | insert ha ih =>
    intro hb hs
    rename_i a s
    rw [Finset.sum_insert ha] at hs ⊢
    rw [Finset.sum_insert ha]
    have hk : c a ≤ 4 := hb a (Finset.mem_insert_self a s)
    have hrest : (∑ r ∈ s, c r) ≤ 5 := by omega
    have hmem := ih (fun r hr => hb r (Finset.mem_insert_of_mem hr)) hrest
    exact sqSums_closed (c a) (by omega) (∑ r ∈ s, c r) (by omega) hs _ hmem

/-- Every card of a fresh deck has a suit from the suit domain. -/
theorem suit_mem_of_new : ∀ c ∈ Deck.new.cards, c.suit ∈ Card.SUITS := by
  decide

/-- In a duplicate-free hand whose suits come from the 4-element suit
domain, no rank occurs more than 4 times. -/
theorem count_rank_le_four (h : Hand) (hnd : h.cards.Nodup)
    (hsuit : ∀ c ∈ h.cards, c.suit ∈ Card.SUITS) (r : String) :
    (h.cards.map Card.rank).count r ≤ 4 := by
  rw [List.count, List.countP_map]
  simp only [Function.comp_def]
  rw [List.countP_eq_length_filter]
  have hfnd : (h.cards.filter fun c => Card.rank c == r).Nodup := hnd.filter _
  have hmnd : ((h.cards.filter fun c => Card.rank c == r).map Card.suit).Nodup := by
    refine List.Nodup.map_on ?_ hfnd
    intro x hx y hy hxy
    have hxr : x.rank = r := by simpa using (List.mem_filter.mp hx).2
    have hyr : y.rank = r := by simpa using (List.mem_filter.mp hy).2
    obtain ⟨xr, xsu⟩ := x
    obtain ⟨yr, ysu⟩ := y
    dsimp only at hxr hyr hxy
    subst hxr
    subst hyr
    subst hxy
    rfl
  have hsub : ((h.cards.filter fun c => Card.rank c == r).map Card.suit).toFinset ⊆
      Card.SUITS.toFinset := by
    intro s hs
    rw [List.mem_toFinset] at hs ⊢
    obtain ⟨c, hc, rfl⟩ := List.mem_map.mp hs
    exact hsuit c (List.mem_of_mem_filter hc)
  have hcard := Finset.card_le_card hsub
  rw [List.toFinset_card_of_nodup hmnd, List.length_map] at hcard
  have hfour : Card.SUITS.toFinset.card = 4 := by decide
  omega

end Poker

namespace Poker

/-- List-level sums over `List.range` agree with `Finset.range` sums. -/
theorem sum_map_range_eq (n : Nat) (f : Nat → Nat) :
    ((List.range n).map f).sum = ∑ i ∈ Finset.range n, f i := by
  induction n with
  | zero => rfl
  | succ n ih =>
    rw [List.range_succ, List.map_append, List.sum_append, Finset.sum_range_succ, ih]
    simp

/-- Filter lengths over `List.range` agree with indicator sums. -/
theorem length_filter_range_eq (n : Nat) (q : Nat → Bool) :
    ((List.range n).filter q).length = ∑ j ∈ Finset.range n, if q j then 1 else 0 := by
  induction n with
  | zero => rfl
  | succ n ih =>
    rw [List.range_succ, List.filter_append, List.length_append, Finset.sum_range_succ, ih]
    cases hq : q n <;> simp [hq, List.filter]

/-- C1: on every five-card hand of pairwise-distinct cards drawn from the
standard 52-card deck, `num_matches` counts the ordered pairs of distinct
positions holding equal ranks, and its value is always one of
0, 2, 4, 6, 8, 12. -/
theorem num_matches_spec (h : Hand) (hlen : h.cards.length = 5)
    (hnd : h.cards.Nodup) (hdeck : ∀ c ∈ h.cards, c ∈ Deck.new.cards) :
    h.num_matches = specMatchCount h ∧
    h.num_matches ∈ ([0, 2, 4, 6, 8, 12] : List Nat) := by
  have hnm : h.num_matches = ((List.range 5).map fun i =>
      ((List.range 5).filter fun j =>
        decide (i ≠ j ∧ (h.cards.getD i defaultCard).rank =
          (h.cards.getD j defaultCard).rank)).length).sum := rfl
  constructor
  · have hlhs : h.num_matches = ∑ i ∈ Finset.range 5, ∑ j ∈ Finset.range 5,
        if i ≠ j ∧ (h.card i).rank = (h.card j).rank then 1 else 0 := by
      rw [hnm, sum_map_range_eq]
      refine Finset.sum_congr rfl ?_
      intro i _
      rw [length_filter_range_eq]
      refine Finset.sum_congr rfl ?_
      intro j _
      refine if_congr ?_ rfl rfl
      simp only [decide_eq_true_eq, Hand.card]
    have hrhs : specMatchCount h = ∑ i ∈ Finset.range 5, ∑ j ∈ Finset.range 5,
        if i ≠ j ∧ (h.card i).rank = (h.card j).rank then 1 else 0 := by
      calc specMatchCount h
          = ∑ x : Fin 5, ∑ y : Fin 5,
              if x ≠ y ∧ (h.card x.val).rank = (h.card y.val).rank then 1 else 0 := by
            rw [specMatchCount, Finset.card_filter, ← Finset.univ_product_univ,
              Finset.sum_product]
        _ = ∑ x : Fin 5, ∑ j ∈ Finset.range 5,
              if x.val ≠ j ∧ (h.card x.val).rank = (h.card j).rank then 1 else 0 := by
            refine Finset.sum_congr rfl ?_
            intro x _
            rw [← Fin.sum_univ_eq_sum_range
              (fun j => if x.val ≠ j ∧ (h.card x.val).rank = (h.card j).rank then 1 else 0) 5]
            refine Finset.sum_congr rfl ?_
            intro y _
            refine if_congr ?_ rfl rfl
            exact and_congr (not_congr Fin.ext_iff) Iff.rfl
        _ = ∑ i ∈ Finset.range 5, ∑ j ∈ Finset.range 5,
              if i ≠ j ∧ (h.card i).rank = (h.card j).rank then 1 else 0 :=
            Fin.sum_univ_eq_sum_range
              (fun i => ∑ j ∈ Finset.range 5,
                if i ≠ j ∧ (h.card i).rank = (h.card j).rank then 1 else 0) 5
    rw [hlhs, hrhs]
  · set rs := h.cards.map Card.rank with hrsdef
    have hFG : ∀ i ∈ List.range 5,
        ((List.range 5).filter fun j =>
          decide (i ≠ j ∧ (h.cards.getD i defaultCard).rank =
            (h.cards.getD j defaultCard).rank)).length + 1 =
        h.cards.countP fun c =>
          decide ((h.cards.getD i defaultCard).rank = c.rank) := by
      intro i hi
      rw [← List.countP_eq_length_filter]
      have hconv : (List.range 5).countP (fun j =>
            decide (i ≠ j ∧ (h.cards.getD i defaultCard).rank =
              (h.cards.getD j defaultCard).rank)) =
          (List.range 5).countP fun j => decide (i ≠ j) &&
            decide ((h.cards.getD i defaultCard).rank =
              (h.cards.getD j defaultCard).rank) := by
        refine List.countP_congr ?_
        intro j _
        simp
      rw [hconv]
      have hcancel := countP_erase_self (List.range 5) (List.nodup_range 5) i hi
        (fun j => decide ((h.cards.getD i defaultCard).rank =
          (h.cards.getD j defaultCard).rank)) (by simp)
      rw [hcancel]
      have hcr := countP_range_getD h.cards defaultCard
        (fun c => decide ((h.cards.getD i defaultCard).rank = c.rank))
      rw [hlen] at hcr
      exact hcr
    have hkey : h.num_matches + 5 =
        (h.cards.map fun c =>
          h.cards.countP fun c' => decide (c.rank = c'.rank)).sum := by
      have hstep := sum_map_pointwise_succ (List.range 5)
        (fun i => ((List.range 5).filter fun j =>
          decide (i ≠ j ∧ (h.cards.getD i defaultCard).rank =
            (h.cards.getD j defaultCard).rank)).length)
        (fun i => h.cards.countP fun c =>
          decide ((h.cards.getD i defaultCard).rank = c.rank))
        hFG
      rw [List.length_range] at hstep
      have hmr := map_range_getD h.cards defaultCard
        (fun c => h.cards.countP fun c' => decide (c.rank = c'.rank))
      rw [hlen] at hmr
      have hmr' : ((List.range 5).map fun i => h.cards.countP fun c =>
          decide ((h.cards.getD i defaultCard).rank = c.rank)) =
          h.cards.map fun c => h.cards.countP fun c' => decide (c.rank = c'.rank) := by
        rw [← hmr]
      rw [hnm, ← hmr', ← hstep]
    have hmap2 : (h.cards.map fun c =>
        h.cards.countP fun c' => decide (c.rank = c'.rank)) =
        rs.map fun r => rs.count r := by
      rw [hrsdef, List.map_map]
      refine List.map_congr_left ?_
      intro c _
      exact countP_rank_eq_count h.cards c
    have hsum2 : (rs.map fun r => rs.count r).sum =
        ∑ r ∈ rs.toFinset, rs.count r * rs.count r := by
      rw [Finset.sum_list_map_count]
      refine Finset.sum_congr rfl ?_
      intro r _
      rw [smul_eq_mul]
    have htot : ∑ r ∈ rs.toFinset, rs.count r = 5 := by
      rw [List.sum_toFinset_count_eq_length, hrsdef, List.length_map, hlen]
    have hble : ∀ r ∈ rs.toFinset, rs.count r ≤ 4 := by
      intro r _
      have hsuit : ∀ c ∈ h.cards, c.suit ∈ Card.SUITS :=
        fun c hc => suit_mem_of_new c (hdeck c hc)
      exact count_rank_le_four h hnd hsuit r
    have hmem := sum_sq_mem rs.toFinset (fun r => rs.count r) hble (le_of_eq htot)
    rw [htot] at hmem
    have hfinal : h.num_matches + 5 = ∑ r ∈ rs.toFinset, rs.count r * rs.count r := by
      rw [hkey, hmap2, hsum2]
    simp only [sqSums, List.mem_cons, List.not_mem_nil, or_false] at hmem ⊢
    omega

/-- Witness for `num_matches_spec` at the five lowest clubs. -/
theorem num_matches_spec_witness :
    ((Hand.cards ⟨[⟨"2", "♣"⟩, ⟨"3", "♣"⟩, ⟨"4", "♣"⟩, ⟨"5", "♣"⟩, ⟨"6", "♣"⟩]⟩).length = 5 ∧
     (Hand.cards ⟨[⟨"2", "♣"⟩, ⟨"3", "♣"⟩, ⟨"4", "♣"⟩, ⟨"5", "♣"⟩, ⟨"6", "♣"⟩]⟩).Nodup ∧
     ∀ c ∈ Hand.cards ⟨[⟨"2", "♣"⟩, ⟨"3", "♣"⟩, ⟨"4", "♣"⟩, ⟨"5", "♣"⟩, ⟨"6", "♣"⟩]⟩,
       c ∈ Deck.new.cards) ∧
    (Hand.num_matches ⟨[⟨"2", "♣"⟩, ⟨"3", "♣"⟩, ⟨"4", "♣"⟩, ⟨"5", "♣"⟩, ⟨"6", "♣"⟩]⟩ =
       specMatchCount ⟨[⟨"2", "♣"⟩, ⟨"3", "♣"⟩, ⟨"4", "♣"⟩, ⟨"5", "♣"⟩, ⟨"6", "♣"⟩]⟩ ∧
     Hand.num_matches ⟨[⟨"2", "♣"⟩, ⟨"3", "♣"⟩, ⟨"4", "♣"⟩, ⟨"5", "♣"⟩, ⟨"6", "♣"⟩]⟩ ∈
       ([0, 2, 4, 6, 8, 12] : List Nat)) :=
  ⟨⟨rfl, by decide, by decide⟩,
   num_matches_spec ⟨[⟨"2", "♣"⟩, ⟨"3", "♣"⟩, ⟨"4", "♣"⟩, ⟨"5", "♣"⟩, ⟨"6", "♣"⟩]⟩
     rfl (by decide) (by decide)⟩

end Poker

namespace Poker

/-- The loop never pushes the match counter past the quota. -/
theorem runSim_matched_le (pred : Hand → Bool) (quota : Nat) :
    ∀ (rnds : List (Nat → Nat)) (s : SimState), s.matched ≤ quota →
      (runSim pred quota rnds s).matched ≤ quota := by
  intro rnds
  induction rnds with
  | nil => intro s hs; exact hs
  | cons rnd rest ih =>
    intro s hs
    simp only [runSim]
    by_cases hlt : s.matched < quota
    · rw [if_pos hlt]
      refine ih _ ?_
      simp only
      cases trial pred rnd <;> simp <;> omega
    · rw [if_neg hlt]
      exact hs

/-- The match counter stays below the trial counter. -/
theorem runSim_matched_le_trials (pred : Hand → Bool) (quota : Nat) :
    ∀ (rnds : List (Nat → Nat)) (s : SimState), s.matched ≤ s.trials →
      (runSim pred quota rnds s).matched ≤ (runSim pred quota rnds s).trials := by
  intro rnds
  induction rnds with
  | nil => intro s hs; exact hs
  | cons rnd rest ih =>
    intro s hs
    simp only [runSim]
    by_cases hlt : s.matched < quota
    · rw [if_pos hlt]
      refine ih _ ?_
      simp only
      cases trial pred rnd <;> simp <;> omega
    · rw [if_neg hlt]
      exact hs

/-- With enough successful trials in the randomness supply, the loop
reaches the quota. -/
theorem runSim_reaches (pred : Hand → Bool) (quota : Nat) :
    ∀ (rnds : List (Nat → Nat)) (s : SimState), s.matched ≤ quota →
      quota ≤ s.matched + (rnds.map (trial pred)).count true →
      quota ≤ (runSim pred quota rnds s).matched := by
  intro rnds
  induction rnds with
  | nil =>
    intro s hs hq
    simp only [List.map_nil, List.count_nil] at hq
    simpa [runSim] using (by omega : quota ≤ s.matched)
  | cons rnd rest ih =>
    intro s hs hq
    simp only [List.map_cons, List.count_cons] at hq
    simp only [runSim]
    by_cases hlt : s.matched < quota
    · rw [if_pos hlt]
      refine ih _ ?_ ?_
      · simp only
        cases trial pred rnd <;> simp <;> omega
      · simp only
        cases htr : trial pred rnd <;> rw [htr] at hq <;> simp at hq ⊢ <;> omega
    · rw [if_neg hlt]
      omega

/-- C3: the simulation loop (fresh deck, shuffle, deal one hand, count the
trial, count a match when the target predicate holds) stops when the match
counter reaches the quota of 1000: whenever the randomness supply yields at
least 1000 successful trials, the final state has exactly 1000 matches, at
least as many trials as matches, and the reported estimate is
`100 * matches / trials`. -/
theorem simulator_spec (pred : Hand → Bool) (rnds : List (Nat → Nat))
    (hq : 1000 ≤ (rnds.map (trial pred)).count true) :
    (runSim pred 1000 rnds ⟨0, 0⟩).matched = 1000 ∧
    (runSim pred 1000 rnds ⟨0, 0⟩).matched ≤ (runSim pred 1000 rnds ⟨0, 0⟩).trials ∧
    estimated_probability (runSim pred 1000 rnds ⟨0, 0⟩) =
      100 * ((runSim pred 1000 rnds ⟨0, 0⟩).matched : ℚ) /
        ((runSim pred 1000 rnds ⟨0, 0⟩).trials : ℚ) := by
  have h1 := runSim_matched_le pred 1000 rnds ⟨0, 0⟩ (Nat.zero_le 1000)
  have h2 := runSim_reaches pred 1000 rnds ⟨0, 0⟩ (Nat.zero_le 1000) (by simpa using hq)
  have h3 := runSim_matched_le_trials pred 1000 rnds ⟨0, 0⟩ (Nat.le_refl 0)
  exact ⟨by omega, h3, rfl⟩

end Poker

namespace Poker

unseal List.merge List.mergeSort in
/-- Witness for `simulator_spec`: 1000 identity shuffles, each of which
leaves the fresh deck in order, so every trial deals the straight
2-3-4-5-6 of clubs. -/
theorem simulator_spec_witness :
    1000 ≤ (((List.replicate 1000 (fun i : Nat => i)).map
      (trial Hand.is_straight)).count true) ∧
    ((runSim Hand.is_straight 1000 (List.replicate 1000 (fun i : Nat => i))
        ⟨0, 0⟩).matched = 1000 ∧
     (runSim Hand.is_straight 1000 (List.replicate 1000 (fun i : Nat => i))
        ⟨0, 0⟩).matched ≤
       (runSim Hand.is_straight 1000 (List.replicate 1000 (fun i : Nat => i))
        ⟨0, 0⟩).trials ∧
     estimated_probability (runSim Hand.is_straight 1000
        (List.replicate 1000 (fun i : Nat => i)) ⟨0, 0⟩) =
       100 * ((runSim Hand.is_straight 1000 (List.replicate 1000 (fun i : Nat => i))
          ⟨0, 0⟩).matched : ℚ) /
         ((runSim Hand.is_straight 1000 (List.replicate 1000 (fun i : Nat => i))
          ⟨0, 0⟩).trials : ℚ)) := by
  have htrial : trial Hand.is_straight (fun i : Nat => i) = true := by decide
  have hcount : 1000 ≤ (((List.replicate 1000 (fun i : Nat => i)).map
      (trial Hand.is_straight)).count true) := by
    rw [List.map_replicate, htrial, List.count_replicate]
    simp
  exact ⟨hcount, simulator_spec Hand.is_straight _ hcount⟩

end Poker
